import Mathlib

/-!
Verification of the unifai-sdk-py memory subsystem.

This file gives a shallow embedding, in Lean 4, of the parts of the
`unifai` Python package that the specification's testable properties talk
about: the `WorkingMemory` buffer (`unifai/agent/memory/working_memory.py`),
the Chroma record (de)serialisation (`unifai/memory/utils.py`), the rerank
plugin base class (`unifai/memory/plugin.py`), the retrieval pipeline
(`unifai/memory/chroma.py`), the importance calculator
(`unifai/agent/memory/importance.py`), the tool-similarity plugin
(`unifai/memory/tool_plugin.py`), and the persistence caches
(`unifai/agent/memory/base.py`, `unifai/agent/memory/storage.py`).

Modelling conventions:
- Python `float` values are modelled as `ℚ` (the code never relies on
  floating-point rounding for the properties below).
- Python `datetime` values are modelled as `ℚ` (seconds on a timeline);
  `a - b` with `total_seconds()` becomes rational subtraction, and
  `isoformat`/`fromisoformat` round-trip by construction.
- Python `dict` is modelled as an insertion-ordered association list with
  unique keys; assignment to an existing key keeps its position (as CPython
  dicts do), assignment to a fresh key appends.
- Raised exceptions are modelled with `Option`/`Except`.
-/

namespace Unifai

/-! ## Python dict model -/

/-- First value bound to key `k`, like Python `d[k]` / `d.get(k)`. -/
def dGet {K V : Type} [DecidableEq K] (d : List (K × V)) (k : K) : Option V :=
  match d with
  | [] => none
  | (k', v) :: rest => if k' = k then some v else dGet rest k

/-- Python `d[k] = v`: replace in place if the key exists (CPython dicts keep
the original position), otherwise append. -/
def dInsert {K V : Type} [DecidableEq K] (d : List (K × V)) (k : K) (v : V) :
    List (K × V) :=
  if (d.map Prod.fst).contains k then
    d.map (fun p => if p.1 = k then (k, v) else p)
  else d ++ [(k, v)]

/-- Building a dict from a list of entries by successive insertion, like a
Python dict literal with `**` spreads. -/
def dOfList {K V : Type} [DecidableEq K] (entries : List (K × V)) : List (K × V) :=
  entries.foldl (fun d kv => dInsert d kv.1 kv.2) []

/-- Python `d.pop(k, None)`: drop the entry with key `k` (keys are unique). -/
def dPop {K V : Type} [DecidableEq K] (d : List (K × V)) (k : K) : List (K × V) :=
  d.filter (fun kv => kv.1 ≠ k)

/-! ## WorkingMemory (`unifai/agent/memory/working_memory.py`)

`MemoryStep` carries the step payload; `WorkingMemory.add_step` constructs a
step and appends it to `self.steps` (it performs no eviction).
`_compress_steps`, called separately by `messaging.py`, returns immediately
when `len(self.steps) <= self.max_size` or no memory manager is set, and
otherwise summarises the last `max_size` steps into long-term memory and
resets `self.steps = []`.  The side effects on the memory manager are not
modelled; only the buffer contents are. -/

structure MemoryStep where
  thought : Option String
  action : Option String
  action_input : Option String
  action_result : Option String
  observation : Option String
  timestamp : ℚ
  metadata : List (String × String)
deriving DecidableEq, Repr

structure WorkingMemory where
  max_size : ℕ
  steps : List MemoryStep
  has_memory_manager : Bool
deriving DecidableEq, Repr

/-- `WorkingMemory.add_step`: build the step and `self.steps.append(step)`. -/
def WorkingMemory.add_step (wm : WorkingMemory) (step : MemoryStep) : WorkingMemory :=
  { wm with steps := wm.steps ++ [step] }

/-- `WorkingMemory.get_recent_steps(n)` for `n` not `None`: Python `steps[-n:]`
(for `n = 0` Python returns the whole list, since `steps[-0:] = steps[0:]`). -/
def WorkingMemory.get_recent_steps (wm : WorkingMemory) (n : ℕ) : List MemoryStep :=
  if n = 0 then wm.steps else wm.steps.drop (wm.steps.length - n)

/-- `WorkingMemory._compress_steps`: early return when the buffer is not over
capacity or no memory manager is configured; otherwise the compression path
runs and ends with `self.steps = []`. -/
def WorkingMemory.compress_steps (wm : WorkingMemory) : WorkingMemory :=
  if wm.steps.length ≤ wm.max_size ∨ ¬wm.has_memory_manager then wm
  else { wm with steps := [] }

/-- An arbitrary concrete step, used for concrete executions. -/
def sampleStep : MemoryStep :=
  { thought := some "t", action := none, action_input := none,
    action_result := none, observation := none, timestamp := 0, metadata := [] }

/-! ## Time decay (`unifai/agent/memory/importance.py`,
`ImportanceCalculator._calculate_time_decay`)

The Python computes, per reference time,
`abs(1.0 / (1.0 + time_diff / (24 * 3600)))` where
`time_diff = (ref_time - memory_created_at).total_seconds()`.
A zero denominator raises `ZeroDivisionError`, modelled by `none`. -/

/-- The decay computed for one reference time (the body of both branches of
`_calculate_time_decay`). -/
def calcTimeDecayOne (created ref : ℚ) : Option ℚ :=
  let time_diff := ref - created
  if 1 + time_diff / (24 * 3600) = 0 then none
  else some |1 / (1 + time_diff / (24 * 3600))|

/-- `_calculate_time_decay` on the `List[datetime]` branch: one decay per
reference time, in order; a `ZeroDivisionError` anywhere aborts the call. -/
def calculate_time_decay (created : ℚ) : List ℚ → Option (List ℚ)
  | [] => some []
  | r :: rest => do
    let d ← calcTimeDecayOne created r
    let ds ← calculate_time_decay created rest
    pure (d :: ds)

/-- `_calculate_time_decay` on the single-`datetime` branch: returns a
singleton list. -/
def calculate_time_decay_single (created ref : ℚ) : Option (List ℚ) :=
  (calcTimeDecayOne created ref).map (fun d => [d])

/-! ## Plugin weight validation (`unifai/memory/plugin.py`,
`MemoryRankPlugin.weight` setter)

The setter raises `ValueError("Weight must be between 0 and 1")` unless
`0 <= value <= 1`; a raise happens before the assignment, so the stored
`_weight` is unchanged on error.  The result pair is (outcome, object state
after the call). -/

structure MemoryRankPluginState where
  _weight : ℚ
  _enabled : Bool
deriving DecidableEq, Repr

/-- The `weight` property getter. -/
def MemoryRankPluginState.weight (p : MemoryRankPluginState) : ℚ := p._weight

/-- The `enabled` property getter. -/
def MemoryRankPluginState.enabled (p : MemoryRankPluginState) : Bool := p._enabled

/-- The `weight` property setter. -/
def MemoryRankPluginState.set_weight (p : MemoryRankPluginState) (v : ℚ) :
    Except String Unit × MemoryRankPluginState :=
  if ¬(0 ≤ v ∧ v ≤ 1) then (Except.error "Weight must be between 0 and 1", p)
  else (Except.ok (), { p with _weight := v })

/-! ## Provider-based importance scoring (`unifai/agent/memory/importance.py`,
`ImportanceCalculator.calculate_memory_importance`)

The provider call and its parsed response are modelled by
`ProviderResponse`; `ScoreVal.num q` stands for any response value that
Python `float()` converts (int, float, bool, numeric string), and
`ScoreVal.notFloatable` for any value on which `float()` raises. -/

inductive ScoreVal
  | num (q : ℚ)
  | notFloatable
deriving DecidableEq, Repr

inductive ProviderResponse
  | raised
  | ok (fields : List (String × ScoreVal))
deriving DecidableEq, Repr

/-- `ImportanceCalculator.calculate_memory_importance`: any raised exception
gives `0.05`; a missing or unconvertible `importance_score` gives `0.05`;
otherwise the float value is clamped with `max(0.0, min(1.0, x))`. -/
def calculate_memory_importance : ProviderResponse → ℚ
  | .raised => 1/20
  | .ok fields =>
    match dGet fields "importance_score" with
    | none => 1/20
    | some .notFloatable => 1/20
    | some (.num q) => max 0 (min 1 q)

/-! ## Chroma memory record (`unifai/memory/base.py`) -/

/-- Python `uuid.UUID` values: `v4 n` stands for an ordinary uuid (whose
canonical string form parses back via `UUID(...)`), `v5 name` for
`uuid5(NAMESPACE_DNS, name)` produced by the deserializer's fallback. -/
inductive UUID
  | v4 (n : ℕ)
  | v5 (name : String)
deriving DecidableEq, Repr

/-- A display string for a `UUID` (the exact rendering is irrelevant to the
claims; it only feeds the `uuid5` fallback and leftover-metadata strings). -/
def UUID.str : UUID → String
  | .v4 n => "uuid4-" ++ toString n
  | .v5 name => "uuid5-" ++ name

inductive MemoryRole
  | user
  | system
deriving DecidableEq, Repr

def MemoryRole.value : MemoryRole → String
  | .user => "user"
  | .system => "system"

/-- Pydantic validation of a string into `MemoryRole`. -/
def MemoryRole.ofValue : String → Option MemoryRole
  | "user" => some .user
  | "system" => some .system
  | _ => none

inductive MemoryType
  | interaction
  | fact
  | goal
  | evaluation
  | custom
deriving DecidableEq, Repr

def MemoryType.value : MemoryType → String
  | .interaction => "interaction"
  | .fact => "fact"
  | .goal => "goal"
  | .evaluation => "evaluation"
  | .custom => "custom"

/-- Pydantic validation of a string into `MemoryType`. -/
def MemoryType.ofValue : String → Option MemoryType
  | "interaction" => some .interaction
  | "fact" => some .fact
  | "goal" => some .goal
  | "evaluation" => some .evaluation
  | "custom" => some .custom
  | _ => none

structure ToolInfo where
  name : String
  description : String
deriving DecidableEq, Repr

/-- JSON-serialisable Python values (the `content` payload). -/
inductive Json
  | str (s : String)
  | num (q : ℚ)
  | bool (b : Bool)
  | null
  | arr (xs : List Json)
  | obj (fields : List (String × Json))

/-- Python scalar values held in `Memory.metadata`. -/
inductive PyVal
  | s (v : String)
  | i (n : ℤ)
  | b (v : Bool)
  | f (q : ℚ)
deriving DecidableEq, Repr

/-- Python `str(v)` on a metadata value. -/
def pyStr : PyVal → String
  | .s v => v
  | .i n => toString n
  | .b v => if v then "True" else "False"
  | .f q => toString q

/-- The pydantic `Memory` model of `unifai/memory/base.py`.  `content` is the
open `Dict[str, Any]` payload (JSON-serialisable), `metadata` the open
scalar-valued map, timestamps are rational seconds. -/
structure Memory where
  id : UUID
  user_id : UUID
  agent_id : UUID
  content : List (String × Json)
  memory_type : MemoryType
  metadata : List (String × PyVal)
  role : MemoryRole
  tools : Option (List ToolInfo)
  embedding : Option (List ℚ)
  created_at : ℚ
  unique : Bool
  similarity : Option ℚ

/-! ## Serialisation (`unifai/memory/utils.py`)

The serialized form is the metadata dict handed to Chroma.  In Python every
value of that dict is a `str` except the `unique` flag (a `bool`); a
`MetaVal` constructor records which string format produced a value, which is
how the deserializer's parsing steps (`UUID(...)`, `fromisoformat`,
`json.loads`) are modelled: each parser succeeds exactly on the strings its
producer generated.  `jval` is the raw `content["text"]` payload stored
under `content_text`. -/

inductive MetaVal
  | s (v : String)
  | b (v : Bool)
  | uuidStr (u : UUID)
  | dtStr (t : ℚ)
  | jsonStr (j : List (String × Json))
  | toolsStr (ts : List ToolInfo)
  | jval (j : Json)

/-- Python `str(value)` on a serialized-metadata value (feeds the `uuid5`
fallback and the leftover-metadata map; exact renderings of the non-plain
strings are irrelevant to the claims). -/
def MetaVal.str : MetaVal → String
  | .s v => v
  | .b v => if v then "True" else "False"
  | .uuidStr u => u.str
  | .dtStr t => "isoformat-" ++ toString t
  | .jsonStr _ => "json-object"
  | .toolsStr _ => "json-tools"
  | .jval _ => "json-value"

/-- `serialize_memory`: builds the Chroma metadata dict in the source's key
order — the seven fixed entries, then the `str(v)`-coerced user metadata via
`**`-spread, then (only when `memory.tools` is truthy, i.e. a non-empty
list) the dumped tools, and finally `metadata["content"] = json.dumps(...)`.
`none` models the `KeyError` raised when `memory.content["text"]` is
missing. -/
def serialize_memory (m : Memory) : Option (List (String × MetaVal)) :=
  match dGet m.content "text" with
  | none => none
  | some text =>
    let entries : List (String × MetaVal) :=
      [("user_id", .uuidStr m.user_id),
       ("agent_id", .uuidStr m.agent_id),
       ("memory_type", .s m.memory_type.value),
       ("role", .s m.role.value),
       ("content_text", .jval text),
       ("created_at", .dtStr m.created_at),
       ("unique", .b m.unique)]
      ++ m.metadata.map (fun kv => (kv.1, MetaVal.s (pyStr kv.2)))
      ++ (match m.tools with
          | some (t :: ts) => [("tools", MetaVal.toolsStr (t :: ts))]
          | _ => [])
    some (dInsert (dOfList entries) "content" (.jsonStr m.content))

/-- `to_uuid` inside `deserialize_memory`: `UUID(value)` succeeds exactly on
canonical uuid strings; any other string takes the `ValueError` branch and
becomes `uuid5(NAMESPACE_DNS, str(value))`. -/
def to_uuid : MetaVal → UUID
  | .uuidStr u => u
  | v => UUID.v5 v.str

/-- `json.loads` of a serialized value, validated as `List[ToolInfo]`: only
the string dumped from a tools list parses and validates; any other string
hits the `JSONDecodeError` branch, leaving `tools = None`. -/
def loadsTools : MetaVal → Option (List ToolInfo)
  | .toolsStr ts => some ts
  | _ => none

/-- The fallback `{"text": metadata["content_text"]}` value, as JSON. -/
def MetaVal.asJson : MetaVal → Json
  | .jval j => j
  | .b v => .bool v
  | v => .str v.str

/-- Pydantic validation of a serialized value as `memory_type`. -/
def validateMemoryType : MetaVal → Option MemoryType
  | .s v => MemoryType.ofValue v
  | _ => none

/-- Pydantic validation of a serialized value as `role`. -/
def validateRole : MetaVal → Option MemoryRole
  | .s v => MemoryRole.ofValue v
  | _ => none

/-- `datetime.fromisoformat(value)`: succeeds exactly on isoformat output. -/
def fromisoformat : MetaVal → Option ℚ
  | .dtStr t => some t
  | _ => none

/-- Pydantic validation of the `unique` flag (stored as a `bool`). -/
def validateBool : MetaVal → Option Bool
  | .b v => some v
  | _ => none

/-- A leftover metadata value as the Python object it is (`b` stays a bool,
everything else is a string). -/
def MetaVal.asPy : MetaVal → PyVal
  | .b v => .b v
  | v => .s v.str

/-- The keys excluded from the leftover `metadata` in `deserialize_memory`. -/
def reservedKeys : List String :=
  ["user_id", "agent_id", "memory_type", "role", "content_text",
   "created_at", "unique", "tools", "chat_id", "type", "content"]

/-- `deserialize_memory`: reverses `serialize_memory` field by field.
`none` models any raised error (`KeyError` on a missing mandatory key,
`TypeError` from `UUID(None)`/`fromisoformat(None)`, or a pydantic
`ValidationError`).  `embedding` and `similarity` are passed through as the
Python keyword arguments are. -/
def deserialize_memory (memory_id : MetaVal) (metadata : List (String × MetaVal))
    (embedding : Option (List ℚ)) (similarity : Option ℚ) : Option Memory := do
  let tpair : Option (List ToolInfo) × List (String × MetaVal) :=
    match dGet metadata "tools" with
    | none => (none, metadata)
    | some v => (loadsTools v, dPop metadata "tools")
  let md := tpair.2
  let content ←
    match dGet md "content" with
    | some (MetaVal.jsonStr j) => some j
    | _ => (dGet md "content_text").map (fun v => [("text", v.asJson)])
  let uidv ← (dGet md "user_id").orElse (fun _ => dGet md "chat_id")
  let aidv ← dGet md "agent_id"
  let mt ← validateMemoryType
      (((dGet md "memory_type").orElse (fun _ => dGet md "type")).getD (.s "interaction"))
  let role ← validateRole ((dGet md "role").getD (.s "system"))
  let catv ← (dGet md "created_at").orElse (fun _ => dGet md "timestamp")
  let created ← fromisoformat catv
  let uniq ← validateBool ((dGet md "unique").getD (.b false))
  pure ({
    id := to_uuid memory_id
    user_id := to_uuid uidv
    agent_id := to_uuid aidv
    content := content
    memory_type := mt
    metadata := (md.filter (fun kv => ¬ reservedKeys.contains kv.1)).map
      (fun kv => (kv.1, kv.2.asPy))
    role := role
    tools := tpair.1
    embedding := embedding
    created_at := created
    unique := uniq
    similarity := similarity
  } : Memory)

/-- A record inside the round-trip domain: string-valued metadata under a
non-reserved key, a `"text"` content entry, non-empty tools, no similarity. -/
def mC2w : Memory :=
  { id := .v4 7
    user_id := .v4 8
    agent_id := .v4 9
    content := [("text", Json.str "hello"), ("extra", Json.num 5)]
    memory_type := .goal
    metadata := [("k", PyVal.s "v")]
    role := .system
    tools := some [⟨"search", "find things"⟩]
    embedding := some [1, 0]
    created_at := 100
    unique := true
    similarity := none }

/-- Concrete record exercising the round-trip: its metadata holds the
integer `1` under key `"k"`. -/
def mC2 : Memory :=
  { id := .v4 1
    user_id := .v4 2
    agent_id := .v4 3
    content := [("text", Json.str "hello")]
    memory_type := .interaction
    metadata := [("k", PyVal.i 1)]
    role := .user
    tools := none
    embedding := some [1, 0]
    created_at := 100
    unique := false
    similarity := none }

/-! ## Rerank plugin pipeline (`unifai/memory/plugin.py`,
`MemoryRankPlugin.rerank`, and `unifai/memory/chroma.py`,
`ChromaMemoryManager.get_memories`)

A plugin is its mutable state plus its `calculate_scores` method; the
method's `context` argument is fixed for the duration of one query, so a
plugin in a given query is modelled as a function of the candidate list.
`scoresFn` returning `none` models `calculate_scores` raising.  Scores are
keyed by `str(memory.id)`; `UUID` keys model those strings (`str` is
injective on uuids). -/

/-- `memory.similarity or 0.0`. -/
def simGet (m : Memory) : ℚ := m.similarity.getD 0

/-- The mutation loop of `rerank`: every memory whose id has a score gets
`similarity = similarity·(1-weight) + score·weight`. -/
def applyScores (w : ℚ) (scores : List (UUID × ℚ)) (ms : List Memory) : List Memory :=
  ms.map (fun m =>
    match dGet scores m.id with
    | some s => { m with similarity := some (simGet m * (1 - w) + s * w) }
    | none => m)

/-- `memories.sort(key=lambda x: x.similarity or 0.0, reverse=True)`:
Python's sort is stable, and with `reverse=True` ties keep their original
order; insertion sort under the reflexive `≥`-on-similarity relation has
exactly that behaviour (an earlier element stays before later equals). -/
def sortBySimilarityDesc (ms : List Memory) : List Memory :=
  List.insertionSort (fun a b => simGet b ≤ simGet a) ms

structure RankingResult where
  memories : List Memory
  scores : List (UUID × ℚ)

structure PluginM where
  weight : ℚ
  enabled : Bool
  scoresFn : List Memory → Option (List (UUID × ℚ))

/-- `MemoryRankPlugin.rerank`: when disabled or given no memories it returns
the truncated input with zero scores (without calling `calculate_scores`);
otherwise it scores, updates similarities in place, re-sorts descending, and
returns the first `context.count` memories.  `none` models
`calculate_scores` raising, which aborts `rerank` with the memories
untouched. -/
def rerank (p : PluginM) (count : ℕ) (ms : List Memory) : Option RankingResult :=
  if (!p.enabled || ms.isEmpty) then
    some ⟨ms.take count, (ms.take count).map (fun m => (m.id, 0))⟩
  else
    match p.scoresFn ms with
    | none => none
    | some scores =>
      some ⟨(sortBySimilarityDesc (applyScores p.weight scores ms)).take count, scores⟩

/-- One iteration of the plugin loop in `get_memories`: a raising plugin is
caught and skipped (`except ... continue`), otherwise the plugin's returned
memories replace the running list. -/
def pluginStep (count : ℕ) (ms : List Memory) (p : PluginM) : List Memory :=
  match rerank p count ms with
  | none => ms
  | some r => r.memories

/-- `ChromaMemoryManager.get_memories` after the filter translation: fetch
`count * 2` base candidates, run every plugin in order, truncate to
`count`.  `fetch` abstracts `_get_base_memories`. -/
def get_memories (fetch : ℕ → List Memory) (count : ℕ) (plugins : List PluginM) :
    List Memory :=
  let base := fetch (count * 2)
  if plugins.isEmpty then base.take count
  else (plugins.foldl (pluginStep count) base).take count

/-- The candidate list each plugin in the pipeline receives (entry `i` is
the list passed to the `i`-th plugin's `rerank`). -/
def pluginInputs (count : ℕ) (base : List Memory) : List PluginM → List (List Memory)
  | [] => []
  | p :: ps => base :: pluginInputs count (pluginStep count base p) ps

/-- Example candidate with base similarity `0.70` (claim C3's scenario). -/
def mExA : Memory :=
  { id := .v4 100
    user_id := .v4 1
    agent_id := .v4 2
    content := [("text", Json.str "A")]
    memory_type := .interaction
    metadata := []
    role := .user
    tools := none
    embedding := none
    created_at := 0
    unique := false
    similarity := some (7/10) }

/-- Second example candidate, also at base similarity `0.70`. -/
def mExB : Memory :=
  { mExA with id := .v4 101, content := [("text", Json.str "B")] }

/-- A plugin of weight `1/2` scoring every candidate `1/2` (used to drive
the pipeline on concrete runs). -/
def pEx : PluginM :=
  { weight := 1/2
    enabled := true
    scoresFn := fun ms => some (ms.map (fun m => (m.id, 1/2))) }

/-! ## Tool-similarity plugin (`unifai/memory/tool_plugin.py`) -/

structure ToolSimilarityConfig where
  tool_match_bonus : ℚ
  sequence_bonus : ℚ
  recency_weight : ℚ
deriving DecidableEq, Repr

/-- Defaults `0.5`, `0.6`, `0.2`. -/
def defaultToolConfig : ToolSimilarityConfig := ⟨1/2, 3/5, 1/5⟩

/-- Python truthiness of `memory.tools` (`None` and `[]` are falsy). -/
def toolsTruthy (m : Memory) : Bool :=
  match m.tools with
  | some (_ :: _) => true
  | _ => false

/-- `_get_tool_sequence`: the ordered tool names of a memory. -/
def get_tool_sequence (m : Memory) : List String :=
  match m.tools with
  | some ts => ts.map ToolInfo.name
  | none => []

/-- The dynamic-programming table of `_calculate_sequence_similarity`:
`lcsDP seq1 seq2 i j` is the Python `dp[i][j]`, filled with
`dp[i][j] = dp[i-1][j-1] + 1` when `seq1[i-1] == seq2[j-1]` and
`max(dp[i-1][j], dp[i][j-1])` otherwise (the loops only evaluate it for
`i ≤ len(seq1)`, `j ≤ len(seq2)`, where the lookups are in bounds). -/
def lcsDP (s1 s2 : List String) : ℕ → ℕ → ℕ
  | 0, _ => 0
  | _ + 1, 0 => 0
  | i + 1, j + 1 =>
    match s1[i]?, s2[j]? with
    | some a, some b =>
      if a = b then lcsDP s1 s2 i j + 1
      else max (lcsDP s1 s2 i (j + 1)) (lcsDP s1 s2 (i + 1) j)
    | _, _ => 0
termination_by i j => i + j

/-- `_calculate_sequence_similarity`: `0.0` when either sequence is empty,
otherwise `2 · dp[m][n] / (m + n)`. -/
def calculate_sequence_similarity (seq1 seq2 : List String) : ℚ :=
  if seq1.isEmpty || seq2.isEmpty then 0
  else 2 * (lcsDP seq1 seq2 seq1.length seq2.length : ℚ)
    / ((seq1.length : ℚ) + (seq2.length : ℚ))

/-- The structural longest-common-subsequence length (the bridge between the
dp table and the subsequence characterisation). -/
def lcsLen : List String → List String → ℕ
  | [], _ => 0
  | _ :: _, [] => 0
  | a :: s, b :: t =>
    if a = b then lcsLen s t + 1
    else max (lcsLen (a :: s) t) (lcsLen s (b :: t))
termination_by s t => s.length + t.length

/-- `k` is the length of a longest common subsequence of `s` and `t`. -/
def IsMaxCommonSubseqLen (s t : List String) (k : ℕ) : Prop :=
  (∃ l : List String, l.Sublist s ∧ l.Sublist t ∧ l.length = k) ∧
  (∀ l : List String, l.Sublist s → l.Sublist t → l.length ≤ k)

/-- The per-candidate score of `ToolSimilarityPlugin.calculate_scores`
(the body of the scoring loop, given the query context assembled from the
recent tool-bearing memories). -/
def toolScoreFor (cfg : ToolSimilarityConfig) (recent : List Memory)
    (context_tools : Finset String) (context_sequence : List String)
    (m : Memory) : ℚ :=
  if !toolsTruthy m then 0
  else
    let memory_tools := (get_tool_sequence m).toFinset
    let memory_sequence := get_tool_sequence m
    let inter := (memory_tools ∩ context_tools).card
    let uni := (memory_tools ∪ context_tools).card
    let base0 : ℚ := if uni = 0 then 0 else (inter : ℚ) / (uni : ℚ)
    let base1 := if 0 < inter then base0 + cfg.tool_match_bonus else base0
    let base2 :=
      if !(context_sequence.isEmpty || memory_sequence.isEmpty) then
        base1 + calculate_sequence_similarity context_sequence memory_sequence
          * cfg.sequence_bonus
      else base1
    let recency_factor : ℚ :=
      match recent.findIdx? (fun r => decide (r.id = m.id)) with
      | some idx => 1 - (idx : ℚ) * cfg.recency_weight
      | none => 1
    min (base2 * recency_factor) 1

/-- `ToolSimilarityPlugin.calculate_scores`: recent tool-bearing memories
sorted by `created_at` descending (stable) provide the context tool set and
aggregate sequence; with no context tools every candidate scores `0.0`;
otherwise each candidate's score is entered into the dict keyed by its id. -/
def calculate_scores (cfg : ToolSimilarityConfig) (memories : List Memory) :
    List (UUID × ℚ) :=
  let recent := List.insertionSort (fun a b : Memory => b.created_at ≤ a.created_at)
    (memories.filter toolsTruthy)
  let context_tools : Finset String :=
    recent.foldl (fun s m => s ∪ (get_tool_sequence m).toFinset) ∅
  let context_sequence : List String :=
    recent.foldl (fun l m => l ++ get_tool_sequence m) []
  if context_tools = ∅ then
    memories.map (fun m => (m.id, 0))
  else
    memories.foldl
      (fun scores m =>
        dInsert scores m.id (toolScoreFor cfg recent context_tools context_sequence m))
      []

/-! ## Agent-side persistence (`unifai/agent/memory/base.py`,
`unifai/agent/memory/storage.py`) -/

/-- The agent-side `Memory` record of `unifai/agent/memory/base.py` (ids are
`str(uuid4())` strings; the metadata dict's values are irrelevant to the
claims and modelled as strings). -/
structure AgentMemory where
  id : String
  content : String
  type : String
  associated_agents : List String
  metadata : List (String × String)
  embedding : Option (List ℚ)
  importance_score : ℚ
  created_at : ℚ
  last_accessed : ℚ
deriving DecidableEq, Repr

/-- `MemoryStream._update_cache`: insert into the `OrderedDict` (an existing
key keeps its position) and, when the size exceeds `_cache_size`, evict the
least-recently-inserted entry with `popitem(last=False)`. -/
def update_cache (cache_size : ℕ) (cache : List (String × AgentMemory))
    (mid : String) (m : AgentMemory) : List (String × AgentMemory) :=
  let c := dInsert cache mid m
  if cache_size < c.length then c.drop 1 else c

/-- `LocalStorage` state: the two configured limits and the plain-dict read
cache `_memory_cache` (which has no capacity parameter). -/
structure LocalStorage where
  max_batch_size : ℕ
  max_open_files : ℕ
  memory_cache : List (String × AgentMemory)

/-- The cache effect of `LocalStorage._batch_write` on a batch whose
serializations succeed: after writing each record's file the code runs
`self._memory_cache[memory.id] = memory`, with no eviction of any kind. -/
def batch_write (st : LocalStorage) (batch : List AgentMemory) : LocalStorage :=
  { st with memory_cache := batch.foldl (fun c m => dInsert c m.id m) st.memory_cache }

/-- `LocalStorage.load_memory`: serve from `_memory_cache` when present;
otherwise read the backing file (`disk`), populate the cache (again without
eviction), and return the record; a missing file returns `None`. -/
def load_memory (st : LocalStorage) (mid : String) (disk : String → Option AgentMemory) :
    Option AgentMemory × LocalStorage :=
  match dGet st.memory_cache mid with
  | some m => (some m, st)
  | none =>
    match disk mid with
    | none => (none, st)
    | some m => (some m, { st with memory_cache := dInsert st.memory_cache mid m })

/-- A concrete stored record. -/
def mS0 : AgentMemory :=
  { id := "m0", content := "c0", type := "observation", associated_agents := [],
    metadata := [], embedding := none, importance_score := 0, created_at := 0,
    last_accessed := 0 }

/-- A second concrete stored record with a distinct id. -/
def mS1 : AgentMemory := { mS0 with id := "m1", content := "c1" }

/-! ## `Memory.to_dict` under `functools.lru_cache`
(`unifai/agent/memory/base.py`)

`to_dict` is an `async def` decorated with `@lru_cache(maxsize=1000)`.
Calling `m.to_dict()` therefore returns a coroutine object that the cache
stores keyed on `self`; a second call for the same object returns the very
same coroutine.  A CPython coroutine can be awaited only once — a second
`await` raises `RuntimeError("cannot reuse already awaited coroutine")`.
Objects are identified by an index `i : ℕ` (the cache key is object
identity); the "dict" produced by a successful await is identified with the
object's index.  The coroutine store maps an object to `consumed` once its
cached coroutine has been awaited. -/

inductive CoroState
  | fresh
  | consumed
deriving DecidableEq, Repr

/-- One evaluation of `await m.to_dict()` for object `i`: on the first
evaluation the cache misses, a fresh coroutine is created, cached and
awaited (success); once the cached coroutine is consumed, every further
`await` raises. -/
def await_to_dict (st : List (ℕ × CoroState)) (i : ℕ) :
    Except Unit ℕ × List (ℕ × CoroState) :=
  match dGet st i with
  | some CoroState.consumed => (Except.error (), st)
  | _ => (Except.ok i, dInsert st i CoroState.consumed)

/-- The serialization loop of `LocalStorage._batch_write`
(`memory_dict = await memory.to_dict()` per record): the first raising
record aborts the batch (there is no per-record `try`). -/
def batch_write_serialize : List ℕ → List (ℕ × CoroState) →
    Except Unit (List (ℕ × CoroState))
  | [], st => Except.ok st
  | i :: rest, st =>
    match await_to_dict st i with
    | (Except.ok _, st') => batch_write_serialize rest st'
    | (Except.error _, _) => Except.error ()

/-! # Theorems -/

theorem dGet_append_of_none {K V : Type} [DecidableEq K] {a : List (K × V)} (b : List (K × V))
    {k : K} (h : dGet a k = none) : dGet (a ++ b) k = dGet b k := by
  induction a with
  | nil => simp
  | cons hd tl ih =>
    obtain ⟨k', v⟩ := hd
    by_cases hk : k' = k
    · simp [dGet, hk] at h
    · simp only [dGet, if_neg hk] at h ⊢
      exact ih h

theorem dGet_append_of_some {K V : Type} [DecidableEq K] {a : List (K × V)} (b : List (K × V))
    {k : K} {v : V} (h : dGet a k = some v) : dGet (a ++ b) k = some v := by
  induction a with
  | nil => simp [dGet] at h
  | cons hd tl ih =>
    obtain ⟨k', v'⟩ := hd
    by_cases hk : k' = k
    · simp only [dGet, if_pos hk] at h ⊢
      exact h
    · simp only [dGet, if_neg hk] at h ⊢
      exact ih h

theorem dGet_of_forall_ne {K V : Type} [DecidableEq K] (d : List (K × V)) (k : K)
    (h : ∀ kv ∈ d, kv.1 ≠ k) : dGet d k = none := by
  induction d with
  | nil => rfl
  | cons hd tl ih =>
    have h1 : hd.1 ≠ k := h hd (List.mem_cons_self hd tl)
    obtain ⟨k', v⟩ := hd
    simp only [dGet, if_neg h1]
    exact ih (fun kv hkv => h kv (List.mem_cons_of_mem _ hkv))

theorem dInsert_of_fresh {K V : Type} [DecidableEq K] (d : List (K × V)) (k : K) (v : V)
    (h : ∀ kv ∈ d, kv.1 ≠ k) : dInsert d k v = d ++ [(k, v)] := by
  unfold dInsert
  rw [if_neg]
  simp only [List.contains_eq_any_beq, List.any_eq_true, not_exists]
  intro x
  simp only [List.mem_map, beq_iff_eq, not_and]
  rintro ⟨kv, hkv, rfl⟩
  exact fun hek => (h kv hkv) hek.symm

theorem dOfList_eq_append {K V : Type} [DecidableEq K] (entries : List (K × V)) :
    ∀ acc : List (K × V),
      (∀ kv ∈ entries, ∀ kv' ∈ acc, kv.1 ≠ kv'.1) →
      (entries.map Prod.fst).Nodup →
      entries.foldl (fun d kv => dInsert d kv.1 kv.2) acc = acc ++ entries := by
  induction entries with
  | nil => intro acc _ _; simp
  | cons hd tl ih =>
    intro acc hdisj hnodup
    rw [List.map_cons, List.nodup_cons] at hnodup
    obtain ⟨hhd, hnodup'⟩ := hnodup
    simp only [List.foldl_cons]
    rw [dInsert_of_fresh acc hd.1 hd.2
      (fun kv hkv => (hdisj hd (List.mem_cons_self hd tl) kv hkv).symm)]
    rw [ih (acc ++ [hd]) ?_ hnodup']
    · simp
    · intro kv hkv kv' hkv'
      rcases List.mem_append.mp hkv' with h1 | h2
      · exact hdisj kv (List.mem_cons_of_mem _ hkv) kv' h1
      · have hkvhd : kv' = hd := by simpa using h2
        subst hkvhd
        intro he
        exact hhd (List.mem_map.mpr ⟨kv, hkv, he⟩)

theorem dOfList_of_nodup {K V : Type} [DecidableEq K] (entries : List (K × V))
    (h : (entries.map Prod.fst).Nodup) : dOfList entries = entries := by
  simpa [dOfList] using dOfList_eq_append entries [] (by simp) h

theorem dGet_length_dInsert {K V : Type} [DecidableEq K] (d : List (K × V)) (k : K) (v : V) :
    (dInsert d k v).length ≤ d.length + 1 := by
  unfold dInsert
  split
  · simp
  · simp

theorem add_step_foldl_steps (wm : WorkingMemory) (seq : List MemoryStep) :
    (seq.foldl WorkingMemory.add_step wm).steps = wm.steps ++ seq := by
  induction seq generalizing wm with
  | nil => simp
  | cons s rest ih => simp [WorkingMemory.add_step, ih]

/-- Claim C1, counterexample: with `max_size = 1`, two `add_step` calls leave
two steps in the buffer, so the step count exceeds `max_size` — `add_step`
never evicts. -/
theorem claim_C1_counterexample :
    (((WorkingMemory.mk 1 [] false).add_step sampleStep).add_step sampleStep).steps.length = 2 ∧
    ¬ (((WorkingMemory.mk 1 [] false).add_step sampleStep).add_step
        sampleStep).steps.length ≤ (WorkingMemory.mk 1 [] false).max_size := by
  constructor
  · rfl
  · decide

/-- Claim C1, amended: `add_step` always appends and never evicts, so after a
sequence of `n` `add_step` calls the buffer holds its previous count plus `n`
steps, which can exceed `max_size`; the buffer is only reduced by the
separately-invoked `_compress_steps`, which leaves the buffer unchanged when
its size is at most `max_size` or no memory manager is configured, and
otherwise empties it entirely. -/
theorem claim_C1_addStep_appends_only (wm : WorkingMemory) (seq : List MemoryStep) :
    (seq.foldl WorkingMemory.add_step wm).steps.length = wm.steps.length + seq.length ∧
    (seq.foldl WorkingMemory.add_step wm).max_size = wm.max_size ∧
    (∀ w : WorkingMemory, w.steps.length ≤ w.max_size ∨ ¬w.has_memory_manager = true →
      w.compress_steps = w) ∧
    (∀ w : WorkingMemory, ¬(w.steps.length ≤ w.max_size ∨ ¬w.has_memory_manager = true) →
      w.compress_steps.steps = []) := by
  refine ⟨?_, ?_, ?_, ?_⟩
  · rw [add_step_foldl_steps]; simp
  · induction seq generalizing wm with
    | nil => rfl
    | cons s rest ih => simpa [WorkingMemory.add_step] using ih _
  · intro w h
    simp only [WorkingMemory.compress_steps, if_pos h]
  · intro w h
    simp only [WorkingMemory.compress_steps, if_neg h]

/-- Witness for `claim_C1_addStep_appends_only` at concrete inputs. -/
theorem claim_C1_witness :
    ((([sampleStep, sampleStep].foldl WorkingMemory.add_step
        (WorkingMemory.mk 1 [] false)).steps.length = 0 + 2) ∧
      (WorkingMemory.mk 3 [] true).compress_steps = WorkingMemory.mk 3 [] true ∧
      (WorkingMemory.mk 0 [sampleStep] true).compress_steps.steps = []) :=
  ⟨(claim_C1_addStep_appends_only (WorkingMemory.mk 1 [] false)
      [sampleStep, sampleStep]).1,
   (claim_C1_addStep_appends_only (WorkingMemory.mk 1 [] false) []).2.2.1
      (WorkingMemory.mk 3 [] true) (by simp),
   (claim_C1_addStep_appends_only (WorkingMemory.mk 1 [] false) []).2.2.2
      (WorkingMemory.mk 0 [sampleStep] true) (by simp [sampleStep])⟩

/-- Claim C5, counterexample: the claim quantifies over every `createdAt` and
`referenceTime`.  With `createdAt = 86400` and `referenceTime = 43200`
(reference half a day before creation) the code returns `2`, outside `(0,1]`;
with `createdAt = 259200` and `referenceTime = 86400` the code returns
`abs(-1) = 1` while the claimed formula `1 / (1 + Δ/86400)` gives `-1`. -/
theorem claim_C5_counterexample :
    calcTimeDecayOne 86400 43200 = some 2 ∧ ¬ ((2 : ℚ) ≤ 1) ∧
    calcTimeDecayOne 259200 86400 = some 1 ∧
    (1 / (1 + ((86400 : ℚ) - 259200) / 86400) = -1) ∧ ((1 : ℚ) ≠ -1) := by
  refine ⟨?_, by norm_num, ?_, by norm_num, by norm_num⟩
  · unfold calcTimeDecayOne
    norm_num
  · unfold calcTimeDecayOne
    norm_num

/-- Claim C5, amended: whenever the reference time is not earlier than the
creation time, `_calculate_time_decay` returns exactly
`1 / (1 + Δseconds/86400)` (the `abs` is the identity there), the value lies
in `(0, 1]`, and it is monotonically decreasing in the elapsed time; both the
single-datetime branch and the list branch return these values. -/
theorem claim_C5_time_decay (created ref : ℚ) (h : created ≤ ref) :
    calcTimeDecayOne created ref = some (1 / (1 + (ref - created) / 86400)) ∧
    0 < 1 / (1 + (ref - created) / 86400) ∧
    1 / (1 + (ref - created) / 86400) ≤ 1 ∧
    (∀ ref2, ref ≤ ref2 →
      1 / (1 + (ref2 - created) / 86400) ≤ 1 / (1 + (ref - created) / 86400)) ∧
    calculate_time_decay_single created ref
      = some [1 / (1 + (ref - created) / 86400)] ∧
    calculate_time_decay created [ref] = some [1 / (1 + (ref - created) / 86400)] := by
  have hd : (1 : ℚ) ≤ 1 + (ref - created) / 86400 := by
    have : (0 : ℚ) ≤ (ref - created) / 86400 := by
      apply div_nonneg (by linarith) (by norm_num)
    linarith
  have hpos : (0 : ℚ) < 1 + (ref - created) / 86400 := lt_of_lt_of_le one_pos hd
  have hne : 1 + (ref - created) / 86400 ≠ 0 := ne_of_gt hpos
  have hval : calcTimeDecayOne created ref
      = some (1 / (1 + (ref - created) / 86400)) := by
    unfold calcTimeDecayOne
    rw [if_neg (by norm_num; exact hne)]
    congr 1
    rw [show ((24 : ℚ) * 3600) = 86400 by norm_num, abs_of_pos (one_div_pos.mpr hpos)]
  refine ⟨hval, by positivity, ?_, ?_, ?_, ?_⟩
  · rw [div_le_one hpos]; exact hd
  · intro ref2 h2
    apply one_div_le_one_div_of_le hpos
    have : (ref - created) / 86400 ≤ (ref2 - created) / 86400 := by
      apply div_le_div_of_nonneg_right ?_ (by norm_num)
      linarith
    linarith
  · unfold calculate_time_decay_single
    rw [hval]; rfl
  · simp [calculate_time_decay, hval]

/-- Witness for `claim_C5_time_decay` at `created = 0`, `ref = 86400`:
the decay is `1/2`. -/
theorem claim_C5_witness :
    calcTimeDecayOne 0 86400 = some (1 / (1 + ((86400 : ℚ) - 0) / 86400)) ∧
    (0 : ℚ) < 1 / (1 + ((86400 : ℚ) - 0) / 86400) :=
  ⟨(claim_C5_time_decay 0 86400 (by norm_num)).1,
   (claim_C5_time_decay 0 86400 (by norm_num)).2.1⟩

/-- Claim C6: assigning a weight outside `[0,1]` raises
`ValueError("Weight must be between 0 and 1")` and leaves the plugin state
(in particular its stored weight) unchanged; assigning a value in `[0,1]`
succeeds and stores exactly that value, leaving `enabled` untouched. -/
theorem claim_C6_weight_validation (p : MemoryRankPluginState) (v : ℚ) :
    ((v < 0 ∨ 1 < v) →
      (p.set_weight v).1 = Except.error "Weight must be between 0 and 1" ∧
      (p.set_weight v).2 = p) ∧
    (0 ≤ v → v ≤ 1 →
      (p.set_weight v).1 = Except.ok () ∧
      (p.set_weight v).2.weight = v ∧
      (p.set_weight v).2.enabled = p.enabled) := by
  constructor
  · intro h
    have hcond : ¬(0 ≤ v ∧ v ≤ 1) := by
      rcases h with h | h
      · exact fun hc => absurd hc.1 (not_le.mpr h)
      · exact fun hc => absurd hc.2 (not_le.mpr h)
    unfold MemoryRankPluginState.set_weight
    rw [if_pos hcond]
    exact ⟨rfl, rfl⟩
  · intro h0 h1
    have hcond : ¬¬(0 ≤ v ∧ v ≤ 1) := not_not.mpr ⟨h0, h1⟩
    unfold MemoryRankPluginState.set_weight
    rw [if_neg hcond]
    exact ⟨rfl, rfl, rfl⟩

/-- Witness for `claim_C6_weight_validation`: assigning `2` to a plugin of
weight `1/2` errors and keeps the state; assigning `3/4` succeeds. -/
theorem claim_C6_witness :
    (((MemoryRankPluginState.mk (1/2) true).set_weight 2).2
        = MemoryRankPluginState.mk (1/2) true) ∧
    ((MemoryRankPluginState.mk (1/2) true).set_weight (3/4)).2.weight = 3/4 :=
  ⟨((claim_C6_weight_validation (MemoryRankPluginState.mk (1/2) true) 2).1
      (Or.inr (by norm_num))).2,
   ((claim_C6_weight_validation (MemoryRankPluginState.mk (1/2) true) (3/4)).2
      (by norm_num) (by norm_num)).2.1⟩

/-- Claim C7, counterexample: when the provider returns the out-of-range
value `2` for `importance_score`, the code returns the clamped value `1`,
not the low default `0.05` the claim requires for out-of-range values. -/
theorem claim_C7_counterexample :
    calculate_memory_importance (.ok [("importance_score", .num 2)]) = 1 ∧
    (1 : ℚ) ≠ 1/20 := by
  constructor
  · unfold calculate_memory_importance dGet
    norm_num
  · norm_num

/-- Claim C7, amended: `calculate_memory_importance` never propagates a
failure: a raised provider error, a missing `importance_score`, or a value
`float()` cannot convert all yield the default `0.05`; a convertible value is
clamped into `[0,1]` by `max(0.0, min(1.0, x))` (not defaulted); and every
returned value lies in `[0,1]`. -/
theorem claim_C7_importance_safe (resp : ProviderResponse) :
    (0 ≤ calculate_memory_importance resp ∧ calculate_memory_importance resp ≤ 1) ∧
    (resp = .raised → calculate_memory_importance resp = 1/20) ∧
    (∀ fields, resp = .ok fields → dGet fields "importance_score" = none →
      calculate_memory_importance resp = 1/20) ∧
    (∀ fields, resp = .ok fields →
      dGet fields "importance_score" = some .notFloatable →
      calculate_memory_importance resp = 1/20) ∧
    (∀ fields q, resp = .ok fields →
      dGet fields "importance_score" = some (.num q) →
      calculate_memory_importance resp = max 0 (min 1 q)) := by
  refine ⟨?_, ?_, ?_, ?_, ?_⟩
  · cases resp with
    | raised => constructor <;> norm_num [calculate_memory_importance]
    | ok fields =>
      simp only [calculate_memory_importance]
      rcases hf : dGet fields "importance_score" with _ | sv
      · constructor <;> norm_num
      · cases sv with
        | num q =>
          constructor
          · exact le_max_left 0 _
          · exact max_le (by norm_num) (min_le_left 1 q)
        | notFloatable => constructor <;> norm_num
  · rintro rfl; rfl
  · rintro fields rfl hnone
    simp only [calculate_memory_importance]
    rw [hnone]
  · rintro fields rfl hnf
    simp only [calculate_memory_importance]
    rw [hnf]
  · rintro fields q rfl hq
    simp only [calculate_memory_importance]
    rw [hq]

/-- Witness for `claim_C7_importance_safe` at a concrete response carrying
`importance_score = 3/4`. -/
theorem claim_C7_witness :
    calculate_memory_importance (.ok [("importance_score", .num (3/4))])
      = max 0 (min 1 (3/4)) ∧
    0 ≤ calculate_memory_importance (.ok [("importance_score", .num (3/4))]) :=
  ⟨(claim_C7_importance_safe (.ok [("importance_score", .num (3/4))])).2.2.2.2
      [("importance_score", .num (3/4))] (3/4) rfl (by rfl),
   (claim_C7_importance_safe (.ok [("importance_score", .num (3/4))])).1.1⟩

theorem memoryType_ofValue_value (mt : MemoryType) :
    MemoryType.ofValue mt.value = some mt := by
  cases mt <;> rfl

theorem memoryRole_ofValue_value (r : MemoryRole) :
    MemoryRole.ofValue r.value = some r := by
  cases r <;> rfl

/-- Claim C2, counterexample: the record `mC2` carries the integer `1` in its
metadata; `serialize_memory` stores `str(1) = "1"` and
`deserialize_memory` hands that string back, so the round-trip changes the
metadata field — every metadata value round-trips as a string. -/
theorem claim_C2_counterexample :
    ((serialize_memory mC2).bind
        (fun ser => deserialize_memory (MetaVal.uuidStr mC2.id) ser mC2.embedding none)).map
      Memory.metadata = some [("k", PyVal.s "1")] ∧
    mC2.metadata = [("k", PyVal.i 1)] ∧
    (PyVal.s "1" : PyVal) ≠ PyVal.i 1 := by
  refine ⟨rfl, rfl, by decide⟩

/-- Claim C2, amended: `deserialize(serialize(r))` (with `r`'s id and
embedding passed through) returns `r` exactly, provided the record is in the
serializer's image domain: its `content` has a `"text"` entry, its metadata
values are strings (any other scalar is coerced by `str(v)` and comes back
as a string), its metadata keys avoid the serializer/deserializer's
reserved keys, its `tools` is not the (falsy) empty list, and its
`similarity` is `None` (the similarity is not serialized). -/
theorem claim_C2_roundtrip (m : Memory) (t : Json)
    (htext : dGet m.content "text" = some t)
    (hvals : ∀ kv ∈ m.metadata, ∃ s, kv.2 = PyVal.s s)
    (hkeys : ∀ kv ∈ m.metadata, reservedKeys.contains kv.1 = false)
    (hnodup : (m.metadata.map Prod.fst).Nodup)
    (htools : m.tools ≠ some [])
    (hsim : m.similarity = none) :
    (serialize_memory m).bind
      (fun ser => deserialize_memory (MetaVal.uuidStr m.id) ser m.embedding none)
      = some m := by
  classical
  obtain ⟨mid, muid, maid, mcontent, mmt, mmd, mrole, mtools, memb, mcat, muniq, msim⟩ := m
  simp only at htext hvals hkeys hnodup htools hsim ⊢
  subst hsim
  -- notation for the pieces of the serialized dict
  set base7 : List (String × MetaVal) :=
    [("user_id", .uuidStr muid),
     ("agent_id", .uuidStr maid),
     ("memory_type", .s mmt.value),
     ("role", .s mrole.value),
     ("content_text", .jval t),
     ("created_at", .dtStr mcat),
     ("unique", .b muniq)] with hbase7
  set userS : List (String × MetaVal) :=
    mmd.map (fun kv => (kv.1, MetaVal.s (pyStr kv.2))) with huserS
  -- no user metadata key is a reserved key
  have huserkey : ∀ r : String, reservedKeys.contains r = true →
      ∀ kv ∈ userS, kv.1 ≠ r := by
    intro r hr kv hkv
    obtain ⟨kv0, hkv0, rfl⟩ := List.mem_map.mp hkv
    intro he
    have he' : kv0.1 = r := he
    rw [← he', hkeys kv0 hkv0] at hr
    exact Bool.false_ne_true hr
  have huserget : ∀ r : String, reservedKeys.contains r = true →
      dGet userS r = none := fun r hr => dGet_of_forall_ne _ _ (huserkey r hr)
  have husermap : userS.map Prod.fst = mmd.map Prod.fst := by
    rw [huserS, List.map_map]; rfl
  have hmetakey : ∀ r : String, reservedKeys.contains r = true →
      r ∉ mmd.map Prod.fst := by
    intro r hr hmem
    obtain ⟨kv0, hkv0, rfl⟩ := List.mem_map.mp hmem
    rw [hkeys kv0 hkv0] at hr
    exact Bool.false_ne_true hr
  have hbasemap : base7.map Prod.fst
      = ["user_id", "agent_id", "memory_type", "role", "content_text",
         "created_at", "unique"] := by
    simp [hbase7]
  have hnodupBU : ((base7 ++ userS).map Prod.fst).Nodup := by
    rw [List.map_append, hbasemap, husermap, List.nodup_append]
    refine ⟨by decide, hnodup, ?_⟩
    intro a ha
    have ha' : a = "user_id" ∨ a = "agent_id" ∨ a = "memory_type" ∨ a = "role" ∨
        a = "content_text" ∨ a = "created_at" ∨ a = "unique" := by simpa using ha
    rcases ha' with rfl | rfl | rfl | rfl | rfl | rfl | rfl
    all_goals exact hmetakey _ (by decide)
  have hfreshC : ∀ kv ∈ base7 ++ userS, kv.1 ≠ "content" := by
    intro kv hkv
    rcases List.mem_append.mp hkv with h | h
    · have h' : kv = ("user_id", MetaVal.uuidStr muid) ∨
          kv = ("agent_id", MetaVal.uuidStr maid) ∨
          kv = ("memory_type", MetaVal.s mmt.value) ∨
          kv = ("role", MetaVal.s mrole.value) ∨
          kv = ("content_text", MetaVal.jval t) ∨
          kv = ("created_at", MetaVal.dtStr mcat) ∨
          kv = ("unique", MetaVal.b muniq) := by simpa [hbase7] using h
      rcases h' with rfl | rfl | rfl | rfl | rfl | rfl | rfl <;> simp
    · exact huserkey "content" (by decide) kv h
  -- lookups into the shared prefix
  have hb7tools : dGet base7 "tools" = none := by rw [hbase7]; simp [dGet]
  have hb7content : dGet base7 "content" = none := by rw [hbase7]; simp [dGet]
  have hb7uid : dGet base7 "user_id" = some (.uuidStr muid) := by
    rw [hbase7]; simp [dGet]
  have hb7aid : dGet base7 "agent_id" = some (.uuidStr maid) := by
    rw [hbase7]; simp [dGet]
  have hb7mt : dGet base7 "memory_type" = some (.s mmt.value) := by
    rw [hbase7]; simp [dGet]
  have hb7role : dGet base7 "role" = some (.s mrole.value) := by
    rw [hbase7]; simp [dGet]
  have hb7cat : dGet base7 "created_at" = some (.dtStr mcat) := by
    rw [hbase7]; simp [dGet]
  have hb7uniq : dGet base7 "unique" = some (.b muniq) := by
    rw [hbase7]; simp [dGet]
  have hfilterB : base7.filter (fun kv => ¬ reservedKeys.contains kv.1) = [] := by
    rw [hbase7]; simp [reservedKeys]
  have hfilterU : userS.filter (fun kv => ¬ reservedKeys.contains kv.1) = userS := by
    apply List.filter_eq_self.mpr
    intro kv hkv
    obtain ⟨kv0, hkv0, rfl⟩ := List.mem_map.mp hkv
    simpa using hkeys kv0 hkv0
  have hleftmap : userS.map (fun kv => (kv.1, kv.2.asPy)) = mmd := by
    rw [huserS, List.map_map]
    have : ∀ kv ∈ mmd, ((fun kv => (kv.1, MetaVal.asPy kv.2)) ∘
        (fun kv => (kv.1, MetaVal.s (pyStr kv.2)))) kv = id kv := by
      intro kv hkv
      obtain ⟨s, hs⟩ := hvals kv hkv
      simp only [Function.comp, hs, pyStr, MetaVal.asPy, MetaVal.str, id]
      rw [← hs]
    rw [List.map_congr_left this, List.map_id]
  rcases hmt : mtools with _ | tl
  case some =>
    cases tl with
    | nil => exact absurd hmt htools
    | cons t0 tr =>
      have htpkey : ∀ kv ∈ base7 ++ userS, kv.1 ≠ "tools" := by
        intro kv hkv
        rcases List.mem_append.mp hkv with h | h
        · have h' : kv = ("user_id", MetaVal.uuidStr muid) ∨
              kv = ("agent_id", MetaVal.uuidStr maid) ∨
              kv = ("memory_type", MetaVal.s mmt.value) ∨
              kv = ("role", MetaVal.s mrole.value) ∨
              kv = ("content_text", MetaVal.jval t) ∨
              kv = ("created_at", MetaVal.dtStr mcat) ∨
              kv = ("unique", MetaVal.b muniq) := by simpa [hbase7] using h
          rcases h' with rfl | rfl | rfl | rfl | rfl | rfl | rfl <;> simp
        · exact huserkey "tools" (by decide) kv h
      have hnodupBUT : (((base7 ++ userS)
          ++ [("tools", MetaVal.toolsStr (t0 :: tr))]).map Prod.fst).Nodup := by
        rw [List.map_append, List.nodup_append]
        refine ⟨hnodupBU, by simp, ?_⟩
        intro a ha hb
        have hb' : a = "tools" := by simpa using hb
        subst hb'
        obtain ⟨kv, hkv, hfst⟩ := List.mem_map.mp ha
        exact htpkey kv hkv hfst
      have hfreshCT : ∀ kv ∈ (base7 ++ userS)
          ++ [("tools", MetaVal.toolsStr (t0 :: tr))], kv.1 ≠ "content" := by
        intro kv hkv
        rcases List.mem_append.mp hkv with h | h
        · exact hfreshC kv h
        · have h' : kv = ("tools", MetaVal.toolsStr (t0 :: tr)) := by simpa using h
          subst h'
          simp
      have hser : serialize_memory
          ⟨mid, muid, maid, mcontent, mmt, mmd, mrole, some (t0 :: tr), memb, mcat,
            muniq, none⟩
          = some (base7 ++ (userS ++ ([("tools", MetaVal.toolsStr (t0 :: tr))]
              ++ [("content", MetaVal.jsonStr mcontent)]))) := by
        simp only [serialize_memory, htext]
        rw [dOfList_of_nodup _ hnodupBUT, dInsert_of_fresh _ _ _ hfreshCT]
        simp [List.append_assoc]
      rw [hser]
      simp only [Option.some_bind]
      have hstools : dGet (base7 ++ (userS ++ ([("tools", MetaVal.toolsStr (t0 :: tr))]
          ++ [("content", MetaVal.jsonStr mcontent)]))) "tools"
          = some (MetaVal.toolsStr (t0 :: tr)) := by
        rw [dGet_append_of_none _ hb7tools,
          dGet_append_of_none _ (huserget "tools" (by decide))]
        simp [dGet]
      have hfpB : base7.filter (fun kv => kv.1 ≠ "tools") = base7 := by
        rw [hbase7]; simp
      have hfpU : userS.filter (fun kv => kv.1 ≠ "tools") = userS := by
        apply List.filter_eq_self.mpr
        intro kv hkv
        simpa using huserkey "tools" (by decide) kv hkv
      have hpop : dPop (base7 ++ (userS ++ ([("tools", MetaVal.toolsStr (t0 :: tr))]
          ++ [("content", MetaVal.jsonStr mcontent)]))) "tools"
          = base7 ++ (userS ++ [("content", MetaVal.jsonStr mcontent)]) := by
        simp only [dPop, List.filter_append]
        rw [hfpB, hfpU]
        simp
      have hgcontent : dGet (base7 ++ (userS ++ [("content", MetaVal.jsonStr mcontent)]))
          "content" = some (MetaVal.jsonStr mcontent) := by
        rw [dGet_append_of_none _ hb7content,
          dGet_append_of_none _ (huserget "content" (by decide))]
        simp [dGet]
      have hguid : dGet (base7 ++ (userS ++ [("content", MetaVal.jsonStr mcontent)]))
          "user_id" = some (.uuidStr muid) := dGet_append_of_some _ hb7uid
      have hgaid : dGet (base7 ++ (userS ++ [("content", MetaVal.jsonStr mcontent)]))
          "agent_id" = some (.uuidStr maid) := dGet_append_of_some _ hb7aid
      have hgmt : dGet (base7 ++ (userS ++ [("content", MetaVal.jsonStr mcontent)]))
          "memory_type" = some (.s mmt.value) := dGet_append_of_some _ hb7mt
      have hgrole : dGet (base7 ++ (userS ++ [("content", MetaVal.jsonStr mcontent)]))
          "role" = some (.s mrole.value) := dGet_append_of_some _ hb7role
      have hgcat : dGet (base7 ++ (userS ++ [("content", MetaVal.jsonStr mcontent)]))
          "created_at" = some (.dtStr mcat) := dGet_append_of_some _ hb7cat
      have hguniq : dGet (base7 ++ (userS ++ [("content", MetaVal.jsonStr mcontent)]))
          "unique" = some (.b muniq) := dGet_append_of_some _ hb7uniq
      have hfiltC : List.filter (fun kv => ¬ reservedKeys.contains kv.1)
          [(("content" : String), MetaVal.jsonStr mcontent)] = [] := by
        simp [reservedKeys]
      have hleft : ((base7 ++ (userS ++ [("content", MetaVal.jsonStr mcontent)])).filter
          (fun kv => ¬ reservedKeys.contains kv.1)).map (fun kv => (kv.1, kv.2.asPy))
          = mmd := by
        rw [List.filter_append, List.filter_append, hfilterB, hfilterU, hfiltC]
        simp only [List.nil_append, List.append_nil]
        exact hleftmap
      simp only [deserialize_memory, hstools, hpop, loadsTools, hgcontent, hguid, hgaid,
        hgmt, hgrole, hgcat, hguniq, Option.some_bind, Option.orElse, Option.getD_some,
        validateMemoryType, validateRole, fromisoformat, validateBool,
        memoryType_ofValue_value, memoryRole_ofValue_value, to_uuid,
        Option.pure_def, hleft]
      rfl
  case none =>
    have hser : serialize_memory
        ⟨mid, muid, maid, mcontent, mmt, mmd, mrole, none, memb, mcat, muniq, none⟩
        = some (base7 ++ (userS ++ [("content", MetaVal.jsonStr mcontent)])) := by
      simp only [serialize_memory, htext]
      rw [List.append_nil, dOfList_of_nodup _ hnodupBU, dInsert_of_fresh _ _ _ hfreshC,
        List.append_assoc]
    rw [hser]
    simp only [Option.some_bind]
    have hgtools : dGet (base7 ++ (userS ++ [("content", MetaVal.jsonStr mcontent)]))
        "tools" = none := by
      rw [dGet_append_of_none _ hb7tools,
        dGet_append_of_none _ (huserget "tools" (by decide))]
      simp [dGet]
    have hgcontent : dGet (base7 ++ (userS ++ [("content", MetaVal.jsonStr mcontent)]))
        "content" = some (MetaVal.jsonStr mcontent) := by
      rw [dGet_append_of_none _ hb7content,
        dGet_append_of_none _ (huserget "content" (by decide))]
      simp [dGet]
    have hguid : dGet (base7 ++ (userS ++ [("content", MetaVal.jsonStr mcontent)]))
        "user_id" = some (.uuidStr muid) := dGet_append_of_some _ hb7uid
    have hgaid : dGet (base7 ++ (userS ++ [("content", MetaVal.jsonStr mcontent)]))
        "agent_id" = some (.uuidStr maid) := dGet_append_of_some _ hb7aid
    have hgmt : dGet (base7 ++ (userS ++ [("content", MetaVal.jsonStr mcontent)]))
        "memory_type" = some (.s mmt.value) := dGet_append_of_some _ hb7mt
    have hgrole : dGet (base7 ++ (userS ++ [("content", MetaVal.jsonStr mcontent)]))
        "role" = some (.s mrole.value) := dGet_append_of_some _ hb7role
    have hgcat : dGet (base7 ++ (userS ++ [("content", MetaVal.jsonStr mcontent)]))
        "created_at" = some (.dtStr mcat) := dGet_append_of_some _ hb7cat
    have hguniq : dGet (base7 ++ (userS ++ [("content", MetaVal.jsonStr mcontent)]))
        "unique" = some (.b muniq) := dGet_append_of_some _ hb7uniq
    have hfiltC : List.filter (fun kv => ¬ reservedKeys.contains kv.1)
        [(("content" : String), MetaVal.jsonStr mcontent)] = [] := by
      simp [reservedKeys]
    have hleft : ((base7 ++ (userS ++ [("content", MetaVal.jsonStr mcontent)])).filter
        (fun kv => ¬ reservedKeys.contains kv.1)).map (fun kv => (kv.1, kv.2.asPy))
        = mmd := by
      rw [List.filter_append, List.filter_append, hfilterB, hfilterU, hfiltC]
      simp only [List.nil_append, List.append_nil]
      exact hleftmap
    simp only [deserialize_memory, hgtools, hgcontent, hguid, hgaid, hgmt, hgrole,
      hgcat, hguniq, Option.some_bind, Option.orElse, Option.getD_some,
      validateMemoryType, validateRole, fromisoformat, validateBool,
      memoryType_ofValue_value, memoryRole_ofValue_value, to_uuid, loadsTools,
      Option.pure_def, hleft]
    rfl

/-- Claim C3: when an enabled plugin has scored a non-empty candidate list,
every scored candidate's similarity becomes
`old·(1-weight) + score·weight`, the list is re-sorted (a permutation,
ordered by descending updated similarity), and in the spec's concrete
scenario — two candidates at base similarity `0.70`, scored `0.9` and `0.1`
by a plugin of weight `0.5` — the result is the high-scored candidate first
at similarity `0.80`, then the other at `0.40`. -/
theorem claim_C3_rerank_updates_and_sorts (w : ℚ) (count : ℕ)
    (scores : List (UUID × ℚ)) (ms : List Memory) (hne : ms ≠ []) :
    (∀ m ∈ ms, ∀ s, dGet scores m.id = some s →
      ({ m with similarity := some (simGet m * (1 - w) + s * w) } : Memory)
        ∈ applyScores w scores ms) ∧
    (sortBySimilarityDesc (applyScores w scores ms)).Perm (applyScores w scores ms) ∧
    (sortBySimilarityDesc (applyScores w scores ms)).Pairwise
      (fun a b => simGet b ≤ simGet a) ∧
    rerank ⟨w, true, fun _ => some scores⟩ count ms
      = some ⟨(sortBySimilarityDesc (applyScores w scores ms)).take count, scores⟩ ∧
    (rerank ⟨1/2, true, fun _ => some [(UUID.v4 100, 9/10), (UUID.v4 101, 1/10)]⟩ 2
        [mExB, mExA]).map (fun r => r.memories.map (fun m => (m.id, m.similarity)))
      = some [(UUID.v4 100, some (4/5)), (UUID.v4 101, some (2/5))] := by
  refine ⟨?_, ?_, ?_, ?_, ?_⟩
  · intro m hm s hs
    simp only [applyScores]
    refine List.mem_map.mpr ⟨m, hm, ?_⟩
    simp only [hs]
  · exact List.perm_insertionSort _ _
  · haveI : IsTotal Memory (fun a b => simGet b ≤ simGet a) :=
      ⟨fun a b => le_total (simGet b) (simGet a)⟩
    haveI : IsTrans Memory (fun a b => simGet b ≤ simGet a) :=
      ⟨fun a b c h1 h2 => le_trans h2 h1⟩
    exact List.sorted_insertionSort _ _
  · cases ms with
    | nil => exact absurd rfl hne
    | cons m0 rest => rfl
  · norm_num [rerank, applyScores, sortBySimilarityDesc, List.insertionSort,
      List.orderedInsert, dGet, mExA, mExB, simGet]

/-- Witness for `claim_C3_rerank_updates_and_sorts` on the concrete
scenario: the candidate scored `0.1` ends at similarity `0.40`. -/
theorem claim_C3_witness :
    ({ mExB with similarity := some (simGet mExB * (1 - 1/2) + (1/10) * (1/2)) } : Memory)
      ∈ applyScores (1/2) [(UUID.v4 100, 9/10), (UUID.v4 101, 1/10)] [mExB, mExA] :=
  (claim_C3_rerank_updates_and_sorts (1/2) 2
      [(UUID.v4 100, 9/10), (UUID.v4 101, 1/10)] [mExB, mExA]
      (by simp)).1 mExB (List.mem_cons_self _ _) (1/10) rfl

/-- Claim C4, counterexample: with `requestedCount = 1`, two base candidates
and two plugins, the first plugin receives both candidates but the second
receives only one — each plugin's `rerank` truncates its output to
`context.count` before the next plugin runs, so later plugins do not see the
full 2×count candidate set. -/
theorem claim_C4_counterexample :
    (pluginInputs 1 [mExB, mExA] [pEx, pEx]).map List.length = [2, 1] ∧
    (1 : ℕ) ≠ 2 := by
  refine ⟨?_, by decide⟩
  norm_num [pluginInputs, pluginStep, rerank, pEx, applyScores, sortBySimilarityDesc,
    List.insertionSort, List.orderedInsert, dGet, mExA, mExB, simGet]

/-- Claim C4, amended: `get_memories` requests `2×requestedCount` base
candidates (its result depends on the fetch only at `count * 2`), the first
plugin receives that full base list, but each plugin that completes returns
at most `requestedCount` memories — the truncation to `requestedCount`
happens inside every plugin's `rerank`, not once after the pipeline — and
the final result holds at most `requestedCount` memories. -/
theorem claim_C4_pipeline (fetch fetch2 : ℕ → List Memory) (count : ℕ)
    (plugins : List PluginM) :
    (fetch (count * 2) = fetch2 (count * 2) →
      get_memories fetch count plugins = get_memories fetch2 count plugins) ∧
    (∀ p ps, plugins = p :: ps →
      (pluginInputs count (fetch (count * 2)) plugins).head?
        = some (fetch (count * 2))) ∧
    (∀ p ms r, rerank p count ms = some r → r.memories.length ≤ count) ∧
    (get_memories fetch count plugins).length ≤ count := by
  refine ⟨?_, ?_, ?_, ?_⟩
  · intro h
    unfold get_memories
    rw [h]
  · intro p ps h
    subst h
    rfl
  · intro p ms r hr
    unfold rerank at hr
    split at hr
    · cases hr
      simp [List.length_take]
    · rcases hs : p.scoresFn ms with _ | sc
      · rw [hs] at hr; cases hr
      · rw [hs] at hr
        cases hr
        simp [List.length_take]
  · unfold get_memories
    split
    · simp [List.length_take]
    · simp [List.length_take]

/-- Witness for `claim_C4_pipeline` at a concrete pipeline of one plugin
over two candidates with `count = 1`. -/
theorem claim_C4_witness :
    (pluginInputs 1 ((fun _ => [mExB, mExA]) (1 * 2)) [pEx]).head?
      = some ((fun _ => [mExB, mExA]) (1 * 2)) ∧
    (get_memories (fun _ => [mExB, mExA]) 1 [pEx]).length ≤ 1 :=
  ⟨(claim_C4_pipeline (fun _ => [mExB, mExA]) (fun _ => [mExB, mExA]) 1 [pEx]).2.1
      pEx [] rfl,
   (claim_C4_pipeline (fun _ => [mExB, mExA]) (fun _ => [mExB, mExA]) 1 [pEx]).2.2.2⟩

/-- Witness for `claim_C2_roundtrip` at the concrete record `mC2w`. -/
theorem claim_C2_witness :
    (serialize_memory mC2w).bind
      (fun ser => deserialize_memory (MetaVal.uuidStr mC2w.id) ser mC2w.embedding none)
      = some mC2w :=
  claim_C2_roundtrip mC2w (Json.str "hello") rfl
    (by
      intro kv hkv
      have hk : kv = ("k", PyVal.s "v") := by simpa [mC2w] using hkv
      exact ⟨"v", by rw [hk]⟩)
    (by decide) (by decide) (by decide) rfl

/-! ### Dict lemmas for fold-built score dicts -/

theorem contains_keys_iff_dGet {K V : Type} [DecidableEq K] (d : List (K × V)) (k : K) :
    (d.map Prod.fst).contains k = true ↔ ∃ v, dGet d k = some v := by
  induction d with
  | nil => simp [dGet]
  | cons hd tl ih =>
    obtain ⟨k0, v0⟩ := hd
    by_cases h0 : k0 = k
    · subst h0
      simp [dGet]
    · simp only [List.map_cons, List.contains_cons, dGet, if_neg h0, Bool.or_eq_true,
        beq_iff_eq, ih]
      constructor
      · rintro (h | h)
        · exact absurd h.symm h0
        · exact h
      · exact Or.inr

theorem dGet_mapReplace_self {K V : Type} [DecidableEq K] (d : List (K × V)) (k : K) (v : V) :
    dGet (d.map (fun p => if p.1 = k then (k, v) else p)) k
      = (dGet d k).map (fun _ => v) := by
  induction d with
  | nil => rfl
  | cons hd tl ih =>
    obtain ⟨k0, v0⟩ := hd
    rw [List.map_cons]
    show dGet ((if k0 = k then (k, v) else (k0, v0)) :: _) k = _
    by_cases h0 : k0 = k
    · rw [if_pos h0]
      show (if k = k then some v else _) = _
      rw [if_pos rfl]
      show _ = ((if k0 = k then some v0 else dGet tl k)).map (fun _ => v)
      rw [if_pos h0]
      rfl
    · rw [if_neg h0]
      show (if k0 = k then some v0 else dGet (tl.map _) k) = _
      rw [if_neg h0, ih]
      show _ = ((if k0 = k then some v0 else dGet tl k)).map (fun _ => v)
      rw [if_neg h0]

theorem dGet_mapReplace_ne {K V : Type} [DecidableEq K] (d : List (K × V)) (k' k : K) (v : V)
    (h : k' ≠ k) :
    dGet (d.map (fun p => if p.1 = k' then (k', v) else p)) k = dGet d k := by
  induction d with
  | nil => rfl
  | cons hd tl ih =>
    obtain ⟨k0, v0⟩ := hd
    rw [List.map_cons]
    show dGet ((if k0 = k' then (k', v) else (k0, v0)) :: _) k = _
    by_cases h0 : k0 = k'
    · rw [if_pos h0]
      show (if k' = k then some v else _) = _
      rw [if_neg h]
      show _ = (if k0 = k then some v0 else dGet tl k)
      have hk0 : ¬ k0 = k := by rw [h0]; exact h
      rw [if_neg hk0, ih]
    · rw [if_neg h0]
      show (if k0 = k then some v0 else dGet (tl.map _) k)
        = (if k0 = k then some v0 else dGet tl k)
      by_cases h1 : k0 = k
      · rw [if_pos h1, if_pos h1]
      · rw [if_neg h1, if_neg h1, ih]

theorem dGet_dInsert_self {K V : Type} [DecidableEq K] (d : List (K × V)) (k : K) (v : V) :
    dGet (dInsert d k v) k = some v := by
  unfold dInsert
  split
  · rename_i hc
    obtain ⟨v0, hv0⟩ := (contains_keys_iff_dGet d k).mp hc
    rw [dGet_mapReplace_self, hv0]
    rfl
  · rename_i hc
    have hnone : dGet d k = none := by
      rcases h : dGet d k with _ | v0
      · rfl
      · exact absurd ((contains_keys_iff_dGet d k).mpr ⟨v0, h⟩) hc
    rw [dGet_append_of_none _ hnone]
    simp [dGet]

theorem dGet_dInsert_ne {K V : Type} [DecidableEq K] (d : List (K × V)) (k' k : K) (v : V)
    (h : k' ≠ k) : dGet (dInsert d k' v) k = dGet d k := by
  unfold dInsert
  split
  · exact dGet_mapReplace_ne d k' k v h
  · rcases hk : dGet d k with _ | v0
    · rw [dGet_append_of_none _ hk]
      simp [dGet, h]
    · exact dGet_append_of_some _ hk

theorem foldl_dInsert_preserve {α K V : Type} [DecidableEq K] (key : α → K) (val : α → V) :
    ∀ (xs : List α) (acc : List (K × V)) (k : K), (∀ z ∈ xs, key z ≠ k) →
      dGet (xs.foldl (fun d y => dInsert d (key y) (val y)) acc) k = dGet acc k := by
  intro xs
  induction xs with
  | nil => intro acc k _; rfl
  | cons y rest ih =>
    intro acc k hz
    rw [List.foldl_cons, ih _ k (fun z hz' => hz z (List.mem_cons_of_mem _ hz')),
      dGet_dInsert_ne _ _ _ _ (hz y (List.mem_cons_self _ _))]

theorem foldl_dInsert_dGet {α K V : Type} [DecidableEq K] (key : α → K) (val : α → V) :
    ∀ (xs : List α) (acc : List (K × V)) (x : α), x ∈ xs → (xs.map key).Nodup →
      dGet (xs.foldl (fun d y => dInsert d (key y) (val y)) acc) (key x) = some (val x) := by
  intro xs
  induction xs with
  | nil => intro acc x hx; cases hx
  | cons y rest ih =>
    intro acc x hx hnd
    rw [List.map_cons, List.nodup_cons] at hnd
    rw [List.foldl_cons]
    rcases List.mem_cons.mp hx with rfl | hmem
    · rw [foldl_dInsert_preserve key val rest _ (key x) ?_, dGet_dInsert_self]
      intro z hz he
      exact hnd.1 (he ▸ List.mem_map_of_mem key hz)
    · exact ih _ x hmem hnd.2

/-! ### Longest common subsequence -/

theorem lcsLen_nil_left (t : List String) : lcsLen [] t = 0 := by
  simp [lcsLen]

theorem lcsLen_nil_right (s : List String) : lcsLen s [] = 0 := by
  cases s <;> simp [lcsLen]

theorem lcsLen_cons_cons (a b : String) (s t : List String) :
    lcsLen (a :: s) (b :: t)
      = if a = b then lcsLen s t + 1
        else max (lcsLen (a :: s) t) (lcsLen s (b :: t)) := by
  simp [lcsLen]

theorem sublist_cons_tail {c a : String} {l s : List String}
    (h : (c :: l).Sublist (a :: s)) : l.Sublist s := by
  rcases List.sublist_cons_iff.mp h with h1 | ⟨r, hr, hrs⟩
  · exact ((List.sublist_cons_self c l).trans h1)
  · injection hr with _ hlr
    exact hlr ▸ hrs

theorem lcsLen_le : ∀ (n : ℕ) (s t l : List String), s.length + t.length ≤ n →
    l.Sublist s → l.Sublist t → l.length ≤ lcsLen s t := by
  intro n
  induction n with
  | zero =>
    intro s t l hn h1 h2
    have hs : s = [] := List.eq_nil_of_length_eq_zero (by omega)
    subst hs
    rw [List.sublist_nil.mp h1]
    simp
  | succ n ih =>
    intro s t l hn h1 h2
    match s, t, l with
    | [], t, l =>
      rw [List.sublist_nil.mp h1]
      simp
    | a :: s', [], l =>
      rw [List.sublist_nil.mp h2]
      simp
    | a :: s', b :: t', [] => simp
    | a :: s', b :: t', c :: l' =>
      rw [lcsLen_cons_cons]
      by_cases hab : a = b
      · rw [if_pos hab]
        subst hab
        have hls : l'.Sublist s' := sublist_cons_tail h1
        have hlt : l'.Sublist t' := sublist_cons_tail h2
        have hlen : s'.length + t'.length ≤ n := by
          simp only [List.length_cons] at hn; omega
        simpa using Nat.succ_le_succ (ih s' t' l' hlen hls hlt)
      · rw [if_neg hab]
        rcases List.sublist_cons_iff.mp h1 with hcs | ⟨r, hr, hrs⟩
        · have hlen : s'.length + (b :: t').length ≤ n := by
            simp only [List.length_cons] at hn ⊢; omega
          exact le_max_of_le_right (ih s' (b :: t') (c :: l') hlen hcs h2)
        · injection hr with hca hlr
          rcases List.sublist_cons_iff.mp h2 with hct | ⟨r2, hr2, hrs2⟩
          · have hlen : (a :: s').length + t'.length ≤ n := by
              simp only [List.length_cons] at hn ⊢; omega
            exact le_max_of_le_left (ih (a :: s') t' (c :: l') hlen h1 hct)
          · injection hr2 with hcb _
            exact absurd (hca.symm.trans hcb) hab

theorem lcsLen_exists : ∀ (n : ℕ) (s t : List String), s.length + t.length ≤ n →
    ∃ l : List String, l.Sublist s ∧ l.Sublist t ∧ l.length = lcsLen s t := by
  intro n
  induction n with
  | zero =>
    intro s t hn
    have hs : s = [] := List.eq_nil_of_length_eq_zero (by omega)
    subst hs
    exact ⟨[], List.nil_sublist _, List.nil_sublist _, by simp [lcsLen_nil_left]⟩
  | succ n ih =>
    intro s t hn
    match s, t with
    | [], t =>
      exact ⟨[], List.nil_sublist _, List.nil_sublist _, by simp [lcsLen_nil_left]⟩
    | a :: s', [] =>
      exact ⟨[], List.nil_sublist _, List.nil_sublist _, by simp [lcsLen_nil_right]⟩
    | a :: s', b :: t' =>
      by_cases hab : a = b
      · subst hab
        obtain ⟨l, hl1, hl2, hl3⟩ := ih s' t' (by
          simp only [List.length_cons] at hn; omega)
        exact ⟨a :: l, List.cons_sublist_cons.mpr hl1, List.cons_sublist_cons.mpr hl2,
          by rw [lcsLen_cons_cons, if_pos rfl]; simp [hl3]⟩
      · rcases le_or_lt (lcsLen (a :: s') t') (lcsLen s' (b :: t')) with hle | hlt
        · obtain ⟨l, hl1, hl2, hl3⟩ := ih s' (b :: t') (by
            simp only [List.length_cons] at hn ⊢; omega)
          refine ⟨l, hl1.cons a, hl2, ?_⟩
          rw [lcsLen_cons_cons, if_neg hab, max_eq_right hle, hl3]
        · obtain ⟨l, hl1, hl2, hl3⟩ := ih (a :: s') t' (by
            simp only [List.length_cons] at hn ⊢; omega)
          refine ⟨l, hl1, hl2.cons b, ?_⟩
          rw [lcsLen_cons_cons, if_neg hab, max_eq_left (le_of_lt hlt), hl3]

theorem lcsLen_spec (s t : List String) : IsMaxCommonSubseqLen s t (lcsLen s t) :=
  ⟨lcsLen_exists (s.length + t.length) s t le_rfl,
   fun l h1 h2 => lcsLen_le (s.length + t.length) s t l le_rfl h1 h2⟩

theorem isMax_of_reverse (s t : List String) (k : ℕ)
    (h : IsMaxCommonSubseqLen s.reverse t.reverse k) : IsMaxCommonSubseqLen s t k := by
  obtain ⟨⟨l, h1, h2, h3⟩, hb⟩ := h
  refine ⟨⟨l.reverse, ?_, ?_, by simpa using h3⟩, ?_⟩
  · have := h1.reverse
    rwa [List.reverse_reverse] at this
  · have := h2.reverse
    rwa [List.reverse_reverse] at this
  · intro l' hl1 hl2
    have := hb l'.reverse hl1.reverse hl2.reverse
    simpa using this

theorem lcsDP_eq_lcsLen (s1 s2 : List String) : ∀ (n i j : ℕ), i + j ≤ n →
    i ≤ s1.length → j ≤ s2.length →
    lcsDP s1 s2 i j = lcsLen ((s1.take i).reverse) ((s2.take j).reverse) := by
  intro n
  induction n with
  | zero =>
    intro i j hn hi hj
    obtain ⟨rfl, rfl⟩ : i = 0 ∧ j = 0 := by omega
    simp [lcsDP, lcsLen_nil_left]
  | succ n ih =>
    intro i j hn hi hj
    match i, j with
    | 0, j => simp [lcsDP, lcsLen_nil_left]
    | i + 1, 0 => simp [lcsDP, lcsLen_nil_right]
    | i + 1, j + 1 =>
      have hia : i < s1.length := by omega
      have hjb : j < s2.length := by omega
      have ha : s1[i]? = some s1[i] := by simp [hia]
      have hb : s2[j]? = some s2[j] := by simp [hjb]
      have htake1 : (s1.take (i + 1)).reverse = s1[i] :: (s1.take i).reverse := by
        rw [List.take_succ, ha]
        simp
      have htake2 : (s2.take (j + 1)).reverse = s2[j] :: (s2.take j).reverse := by
        rw [List.take_succ, hb]
        simp
      rw [htake1, htake2, lcsLen_cons_cons]
      simp only [lcsDP, ha, hb]
      by_cases hab : s1[i] = s2[j]
      · rw [if_pos hab, if_pos hab, ih i j (by omega) (by omega) (by omega)]
      · rw [if_neg hab, if_neg hab,
          ih i (j + 1) (by omega) (by omega) (by omega),
          ih (i + 1) j (by omega) (by omega) (by omega),
          htake1, htake2, max_comm]

/-- Claim C8: `_calculate_sequence_similarity` returns `0` when either
sequence is empty, and otherwise `2·LCS(seq1,seq2)/(len(seq1)+len(seq2))`
where `LCS` is the length of a longest common subsequence (the dp table is
proved to compute exactly that); and `calculate_scores` assigns score `0` to
every candidate without tool data. -/
theorem claim_C8_lcs_and_missing_tools (s1 s2 : List String)
    (cfg : ToolSimilarityConfig) (memories : List Memory) (m : Memory)
    (hm : m ∈ memories) (hmt : toolsTruthy m = false)
    (hnodup : (memories.map Memory.id).Nodup) :
    (s1 = [] ∨ s2 = [] → calculate_sequence_similarity s1 s2 = 0) ∧
    (s1 ≠ [] → s2 ≠ [] → ∃ k : ℕ, IsMaxCommonSubseqLen s1 s2 k ∧
      calculate_sequence_similarity s1 s2
        = 2 * (k : ℚ) / ((s1.length : ℚ) + (s2.length : ℚ))) ∧
    dGet (calculate_scores cfg memories) m.id = some 0 := by
  refine ⟨?_, ?_, ?_⟩
  · rintro (rfl | rfl) <;> simp [calculate_sequence_similarity]
  · intro h1 h2
    have he1 : s1.isEmpty = false := by cases s1 <;> simp_all
    have he2 : s2.isEmpty = false := by cases s2 <;> simp_all
    have hdp : lcsDP s1 s2 s1.length s2.length = lcsLen s1.reverse s2.reverse := by
      have := lcsDP_eq_lcsLen s1 s2 (s1.length + s2.length) s1.length s2.length
        le_rfl le_rfl le_rfl
      simpa [List.take_length] using this
    refine ⟨lcsDP s1 s2 s1.length s2.length,
      isMax_of_reverse s1 s2 _ (hdp ▸ lcsLen_spec s1.reverse s2.reverse), ?_⟩
    simp [calculate_sequence_similarity, he1, he2]
  · simp only [calculate_scores]
    split
    · -- no tool-bearing memory in context: every candidate maps to 0
      rename_i hctx
      clear hmt hnodup hctx
      induction memories with
      | nil => cases hm
      | cons m0 rest ih =>
        rcases List.mem_cons.mp hm with rfl | hmem
        · simp [dGet]
        · by_cases h0 : m0.id = m.id
          · simp [dGet, h0]
          · simp only [List.map_cons, dGet, if_neg h0]
            exact ih hmem
    · rw [foldl_dInsert_dGet Memory.id
        (toolScoreFor cfg _ _ _) memories [] m hm hnodup]
      rename_i hctx
      rw [toolScoreFor, if_pos (by simp [hmt])]

/-- Witness for `claim_C8_lcs_and_missing_tools` at concrete sequences
`["a","b"]`, `["b"]` and the tool-less candidate `mExA`. -/
theorem claim_C8_witness :
    (calculate_sequence_similarity [] ["a"] = 0) ∧
    (∃ k : ℕ, IsMaxCommonSubseqLen ["a", "b"] ["b"] k ∧
      calculate_sequence_similarity ["a", "b"] ["b"]
        = 2 * (k : ℚ) / (((["a", "b"] : List String).length : ℚ)
            + ((["b"] : List String).length : ℚ))) ∧
    dGet (calculate_scores defaultToolConfig [mExA]) mExA.id = some 0 :=
  ⟨(claim_C8_lcs_and_missing_tools [] ["a"] defaultToolConfig [mExA] mExA
      (List.mem_singleton.mpr rfl) rfl (by simp)).1 (Or.inl rfl),
   (claim_C8_lcs_and_missing_tools ["a", "b"] ["b"] defaultToolConfig [mExA] mExA
      (List.mem_singleton.mpr rfl) rfl (by simp)).2.1
      (by simp) (by simp),
   (claim_C8_lcs_and_missing_tools ["a", "b"] ["b"] defaultToolConfig [mExA] mExA
      (List.mem_singleton.mpr rfl) rfl (by simp)).2.2⟩

/-- Claim C9, counterexample: with both configured limits of `LocalStorage`
set to `1`, two one-record batch writes leave two entries in the store-level
read cache — `_memory_cache` is a plain dict with no capacity and no
eviction, so the store-level cache does not stay within any configured
capacity. -/
theorem claim_C9_counterexample :
    (batch_write (batch_write (LocalStorage.mk 1 1 []) [mS0]) [mS1]).memory_cache.length
      = 2 ∧
    (LocalStorage.mk 1 1 []).max_batch_size = 1 ∧
    (LocalStorage.mk 1 1 []).max_open_files = 1 ∧
    ¬ ((2 : ℕ) ≤ 1) :=
  ⟨rfl, rfl, rfl, by decide⟩

/-- Claim C9, amended: the stream-level cache (`MemoryStream._update_cache`)
is bounded — it never exceeds its configured `_cache_size`, evicting the
least-recently-inserted entry once capacity is exceeded — but the
store-level cache (`LocalStorage._memory_cache`) is unbounded: batch writes
never evict an existing entry, and each write of a fresh id grows the cache
by one without limit. -/
theorem claim_C9_cache_bounds (size : ℕ) (cache : List (String × AgentMemory))
    (mid : String) (m : AgentMemory) (st : LocalStorage) (batch : List AgentMemory)
    (hcap : cache.length ≤ size) :
    (update_cache size cache mid m).length ≤ size ∧
    (∀ k v, dGet st.memory_cache k = some v →
      ∃ v', dGet (batch_write st batch).memory_cache k = some v') ∧
    (m.id ∉ st.memory_cache.map Prod.fst →
      (batch_write st [m]).memory_cache.length = st.memory_cache.length + 1) := by
  refine ⟨?_, ?_, ?_⟩
  · have hlen := dGet_length_dInsert cache mid m
    simp only [update_cache]
    split
    · rename_i hgt
      simp only [List.length_drop]
      omega
    · rename_i hle
      omega
  · have H : ∀ (b : List AgentMemory) (c : List (String × AgentMemory)) (k : String)
        (v : AgentMemory), dGet c k = some v →
        ∃ v', dGet (b.foldl (fun c m => dInsert c m.id m) c) k = some v' := by
      intro b
      induction b with
      | nil => intro c k v h; exact ⟨v, h⟩
      | cons b0 rest ih =>
        intro c k v h
        rw [List.foldl_cons]
        by_cases hb : b0.id = k
        · subst hb
          exact ih _ _ b0 (dGet_dInsert_self c b0.id b0)
        · exact ih _ _ v (by rw [dGet_dInsert_ne _ _ _ _ hb]; exact h)
    intro k v h
    exact H batch st.memory_cache k v h
  · intro hfresh
    simp only [batch_write, List.foldl_cons, List.foldl_nil]
    rw [dInsert_of_fresh _ _ _ (fun kv hkv he =>
      hfresh (by rw [← he]; exact List.mem_map_of_mem Prod.fst hkv))]
    simp

/-- Witness for `claim_C9_cache_bounds` at concrete inputs: inserting into a
full one-slot stream cache keeps it at one entry, and a fresh batch write
grows the uncapped store cache from one to two. -/
theorem claim_C9_witness :
    (update_cache 1 [("m0", mS0)] "m1" mS1).length ≤ 1 ∧
    (batch_write (LocalStorage.mk 100 256 [("m0", mS0)]) [mS1]).memory_cache.length
      = [(("m0" : String), mS0)].length + 1 :=
  ⟨(claim_C9_cache_bounds 1 [("m0", mS0)] "m1" mS1
      (LocalStorage.mk 100 256 [("m0", mS0)]) [mS1] (by decide)).1,
   (claim_C9_cache_bounds 1 [("m0", mS0)] "m1" mS1
      (LocalStorage.mk 100 256 [("m0", mS0)]) [mS1] (by decide)).2.2 (by decide)⟩

/-- Claim C10: `to_dict` is an async method under `lru_cache`, so the cache
stores the coroutine created by the first call; the first evaluation
succeeds, any second evaluation for the same object awaits the same
already-consumed coroutine and raises, and consequently a batch write that
serializes the same `Memory` object twice — or a second batch write after
one that already serialized it — fails at that record's second
serialization. -/
theorem claim_C10_to_dict_single_shot (i : ℕ) :
    (await_to_dict [] i).1 = Except.ok i ∧
    (await_to_dict (await_to_dict [] i).2 i).1 = Except.error () ∧
    batch_write_serialize [i, i] [] = Except.error () ∧
    batch_write_serialize [i] [] = Except.ok [(i, CoroState.consumed)] ∧
    batch_write_serialize [i] [(i, CoroState.consumed)] = Except.error () := by
  refine ⟨rfl, ?_, ?_, ?_, ?_⟩ <;>
    simp [await_to_dict, batch_write_serialize, dGet, dInsert]

end Unifai
